import Mathlib

/-!
Verification development for the `globalizer` multiscope globalization services
of libsecurity_utilities (`lib/globalizer.h`).

The header provides three singleton scopes: `ModuleNexus` (atomic-word slot with
a tagged in-progress marker), `ThreadNexus` (per-thread storage slot) and
`ProcessNexus` (string-identified shared store with a mutex-guarded
double-checked pattern), plus `CleanModuleNexus` (teardown variant) and a
non-atomic fallback `ModuleNexus`.

Heap model: `new Type` yields the fresh address `2 * k + 2` for the k-th
allocation, so every instance address is nonzero with the low (tag) bit clear,
matching the alignment assumption the slot-tagging scheme relies on, and no
address is ever reused.  Constructor outcomes are passed in explicitly as an
`Except String Unit` value (`.ok ()` = `new Type` succeeds, `.error e` = the
wrapped type's constructor throws `e`), and each operation returns its result
(or the propagated error) together with the post-state.
-/

namespace Globalizer

/-- A slot word holds a finished instance pointer when it is nonzero with the
low tag bit clear (`p && !(p & 0x1)` in the source's terms). -/
def Finished (p : Nat) : Prop := p ≠ 0 ∧ p % 2 = 0

instance (p : Nat) : Decidable (Finished p) :=
  inferInstanceAs (Decidable (p ≠ 0 ∧ p % 2 = 0))

/-! ## Module-scope nexus, atomic variant (globalizer.h:65-116) -/

/-- State of a `ModuleNexus` (atomic variant) together with the allocator view:
`pointer` is the `AtomicWord` slot (0 = empty, odd = in-progress marker, even
nonzero = finished instance pointer), `sync` the `StaticAtomicCounter<UInt32>`,
and `nextAddr` counts heap allocations performed so far. -/
structure MNState where
  pointer : Nat
  sync : Nat
  nextAddr : Nat
deriving DecidableEq

/-- Address returned by the next `new Type` in state `s`. -/
def freshAddr (s : MNState) : Nat := 2 * s.nextAddr + 2

/-- Modelled from the spec: `ModuleNexusCommon::create(void *(*make)())` is
declared at globalizer.h:67 but implemented in globalizer.cpp, which is not
among the sources at hand.  Sequential (single-caller) view of the protocol of
spec 4.1: if the slot already holds a finished pointer, return it; otherwise
claim the slot, run the factory (`make`, i.e. `new Type`), publish the
resulting pointer and bump the sync counter.  Per spec 7, a constructor
failure propagates unchanged and must leave the slot retryable: the failed
claim is rolled back, leaving the state as found. -/
def MNcreate (mk : Except String Unit) (s : MNState) : Except String Nat × MNState :=
  if Finished s.pointer then (.ok s.pointer, s)
  else
    match mk with
    | .error e => (.error e, s)
    | .ok () =>
        (.ok (freshAddr s),
          { pointer := freshAddr s
            sync := (s.sync + 1) % 2 ^ 32
            nextAddr := s.nextAddr + 1 })

/-- Model of `ModuleNexus<Type>::operator()()` (globalizer.h:78-86): latch the
slot word; if it is empty or carries the in-progress tag bit
(`!p || (p & 0x1)`), call `create`; otherwise return the finished instance
immediately.  `mk` is the outcome of the wrapped type's constructor, should it
come to run. -/
def MNaccess (mk : Except String Unit) (s : MNState) : Except String Nat × MNState :=
  let p := s.pointer
  if p = 0 ∨ p % 2 = 1 then MNcreate mk s
  else (.ok p, s)

/-- Model of `ModuleNexus<Type>::exists()` (globalizer.h:89-92):
`return pointer != NULL;`. -/
def MNexists (s : MNState) : Bool := s.pointer != 0

/-- Model of `ModuleNexus<Type>::reset()` (globalizer.h:95-101): when the slot
word is nonzero with the tag bit clear (`pointer && !(pointer & 0x1)`),
`delete` the pointee and zero the slot.  The first component is the address
handed to `delete`, if any. -/
def MNreset (s : MNState) : Option Nat × MNState :=
  if s.pointer ≠ 0 ∧ ¬(s.pointer % 2 = 1) then
    (some s.pointer, { s with pointer := 0 })
  else (none, s)

/-- C++ `delete p`: a no-op on the null pointer, otherwise it destroys the
pointee at `p`.  The result is the address destroyed, if any. -/
def deleteAt (p : Nat) : Option Nat := if p = 0 then none else some p

/-- Model of `CleanModuleNexus<Type>::~CleanModuleNexus()` (globalizer.h:110-115):
`delete reinterpret_cast<Type *>(pointer)`, unconditionally on whatever the
slot word holds. -/
def cleanMNteardown (s : MNState) : Option Nat := deleteAt s.pointer

/-- On a finished slot, `access()` takes the fast path: it returns the stored
pointer and changes nothing, whatever the constructor outcome would be. -/
theorem MNaccess_finished (s : MNState) (hfin : Finished s.pointer) (mk : Except String Unit) :
    MNaccess mk s = (.ok s.pointer, s) := by
  obtain ⟨hp0, hp2⟩ := hfin
  have hcond : ¬(s.pointer = 0 ∨ s.pointer % 2 = 1) := by
    rintro (h | h)
    · exact hp0 h
    · omega
  simp [MNaccess, hcond]

/-- On a finished slot, `reset()` deletes the stored instance and empties the
slot. -/
theorem MNreset_finished (s : MNState) (hfin : Finished s.pointer) :
    MNreset s = (some s.pointer, { s with pointer := 0 }) := by
  obtain ⟨hp0, hp2⟩ := hfin
  have hc : s.pointer ≠ 0 ∧ ¬(s.pointer % 2 = 1) := ⟨hp0, by omega⟩
  simp [MNreset, hc]

/-- On a slot not holding a finished pointer, `reset()` deletes nothing and
changes nothing. -/
theorem MNreset_not_finished (s : MNState) (hnf : ¬ Finished s.pointer) :
    MNreset s = (none, s) := by
  have hc : ¬(s.pointer ≠ 0 ∧ ¬(s.pointer % 2 = 1)) := by
    rintro ⟨h0, h2⟩
    exact hnf ⟨h0, by omega⟩
  rw [MNreset, if_neg hc]

/-- C2: on a module-scope nexus whose slot holds a finished pointer, `access()`
returns that instance at once, touches nothing (whatever the constructor would
have done), and a second call returns the same reference again. -/
theorem moduleNexus_fastPath_idempotent (s : MNState) (hfin : Finished s.pointer) :
    (∀ mk, MNaccess mk s = (.ok s.pointer, s)) ∧
    (∀ mk mk' p s1, MNaccess mk s = (.ok p, s1) → MNaccess mk' s1 = (.ok p, s1)) := by
  constructor
  · exact MNaccess_finished s hfin
  · intro mk mk' p s1 h
    rw [MNaccess_finished s hfin mk] at h
    obtain ⟨h1, h2⟩ := Prod.mk.injEq .. ▸ h
    cases h1
    cases h2
    exact MNaccess_finished s hfin mk'

/-- Closed witness for the fast-path theorem at a concrete finished state. -/
theorem moduleNexus_fastPath_idempotent_witness :
    Finished (⟨2, 0, 1⟩ : MNState).pointer ∧
    MNaccess (.ok ()) ⟨2, 0, 1⟩ = (.ok 2, ⟨2, 0, 1⟩) := by
  refine ⟨by decide, ?_⟩
  exact (moduleNexus_fastPath_idempotent ⟨2, 0, 1⟩ (by decide)).1 (.ok ())

/-- C3: `exists()` answers true while the slot holds only the in-progress
marker word (here the tag value 1), although no finished instance pointer is
present — contradicting its own "does the object DEFINITELY exist already?"
reading. -/
theorem moduleNexus_exists_true_on_marker :
    MNexists ⟨1, 0, 0⟩ = true ∧ ¬ Finished (⟨1, 0, 0⟩ : MNState).pointer := by
  decide

/-- C5 counterexample: on a slot holding the in-progress marker, `reset()`
does not restore the empty state — the claim's "regardless of whether the slot
was empty, in-progress, or finished" fails at the in-progress state. -/
theorem moduleNexus_reset_marker_counterexample :
    ¬ ((MNreset ⟨1, 0, 0⟩).2.pointer = 0) := by
  decide

/-- C5 (amended): `reset()` destroys the current instance and empties the slot
exactly when the slot holds a finished pointer; on an empty slot it destroys
nothing (slot stays empty), and on a slot holding the in-progress marker it
destroys nothing and leaves the marker in place. -/
theorem moduleNexus_reset_characterization (s : MNState) :
    (Finished s.pointer →
      MNreset s = (some s.pointer, { s with pointer := 0 }) ∧
      MNexists (MNreset s).2 = false) ∧
    (¬ Finished s.pointer →
      MNreset s = (none, s)) := by
  constructor
  · intro hfin
    refine ⟨MNreset_finished s hfin, ?_⟩
    rw [MNreset_finished s hfin]
    simp [MNexists]
  · exact MNreset_not_finished s

/-- Closed witness for the reset characterization, at a finished slot and at a
marker slot. -/
theorem moduleNexus_reset_characterization_witness :
    (MNreset ⟨4, 0, 2⟩ = (some 4, ⟨0, 0, 2⟩) ∧ MNexists (MNreset ⟨4, 0, 2⟩).2 = false) ∧
    MNreset ⟨1, 0, 0⟩ = (none, ⟨1, 0, 0⟩) := by
  constructor
  · exact (moduleNexus_reset_characterization ⟨4, 0, 2⟩).1 (by decide)
  · exact (moduleNexus_reset_characterization ⟨1, 0, 0⟩).2 (by decide)

/-- C4: after a successful `access()` (value `a`), a `reset()` followed by
another `access()` constructs and returns an instance distinct from `a`. -/
theorem moduleNexus_reset_then_access_fresh (s : MNState)
    (hwf : s.pointer < 2 * s.nextAddr + 2)
    (hfin : Finished s.pointer)
    (a : Nat) (s1 : MNState) (h1 : MNaccess (.ok ()) s = (.ok a, s1))
    (d : Option Nat) (s2 : MNState) (h2 : MNreset s1 = (d, s2))
    (b : Nat) (s3 : MNState) (h3 : MNaccess (.ok ()) s2 = (.ok b, s3)) :
    b ≠ a ∧ Finished b := by
  rw [MNaccess_finished s hfin (.ok ())] at h1
  obtain ⟨ha, hs1⟩ := Prod.mk.injEq .. ▸ h1
  have ha' : a = s.pointer := by
    cases ha
    rfl
  cases hs1
  rw [MNreset_finished s hfin] at h2
  obtain ⟨hd, hs2⟩ := Prod.mk.injEq .. ▸ h2
  cases hs2
  have hcond : ((({ s with pointer := 0 } : MNState).pointer = 0) ∨
      (({ s with pointer := 0 } : MNState).pointer % 2 = 1)) := Or.inl rfl
  rw [MNaccess] at h3
  simp only [hcond, if_true] at h3
  rw [MNcreate] at h3
  have hnf : ¬ Finished (({ s with pointer := 0 } : MNState).pointer) := by
    intro h
    exact h.1 rfl
  simp only [hnf, if_false] at h3
  obtain ⟨hb, _⟩ := Prod.mk.injEq .. ▸ h3
  have hb' : b = freshAddr { s with pointer := 0 } := by
    cases hb
    rfl
  subst hb' ha'
  have hfa : freshAddr { s with pointer := 0 } = 2 * s.nextAddr + 2 := rfl
  rw [hfa]
  exact ⟨by omega, by omega, by omega⟩

/-- Closed witness for reset-then-access freshness at a concrete state. -/
theorem moduleNexus_reset_then_access_fresh_witness :
    (4 : Nat) ≠ 2 ∧ Finished 4 := by
  exact moduleNexus_reset_then_access_fresh ⟨2, 0, 1⟩ (by decide) (by decide)
    2 ⟨2, 0, 1⟩ rfl (some 2) ⟨0, 0, 1⟩ (by decide) 4 ⟨4, 1, 2⟩ rfl

/-- C9: the `CleanModuleNexus` destructor hands the slot word to `delete`
unconditionally; while the slot holds only the in-progress marker it therefore
attempts to destroy the tagged non-pointer word 1 instead of destroying
nothing. -/
theorem cleanModuleNexus_teardown_deletes_marker :
    cleanMNteardown ⟨1, 0, 0⟩ = some 1 ∧ ¬ Finished (⟨1, 0, 0⟩ : MNState).pointer := by
  decide

/-! ## Module-scope nexus, non-atomic fallback (globalizer.h:120-141) -/

/-- State of the fallback `ModuleNexus` (no atomic operations available):
`mSingleton` is the singleton pointer (statically initialized to NULL), and
`nextAddr` is the allocator view.  The `Mutex mLock` is held only inside one
call of `operator()` via a scoped `StLock`, released on all exit paths, so it
does not appear in the sequential state. -/
structure MNFState where
  mSingleton : Option Nat
  nextAddr : Nat
deriving DecidableEq

/-- Model of the fallback `ModuleNexus<Type>::operator()()` (globalizer.h:123-134):
unlocked fast read of `mSingleton`; else take `mLock` (scoped, released even on
unwind), re-check, allocate with `new Type`, and return.  Sequentially the
re-check under the lock finds the same empty slot the fast read saw.  If
`new Type` throws, the assignment to `mSingleton` never runs. -/
def MNFaccess (mk : Except String Unit) (s : MNFState) : Except String Nat × MNFState :=
  match s.mSingleton with
  | some p => (.ok p, s)
  | none =>
      match mk with
      | .error e => (.error e, s)
      | .ok () =>
          (.ok (2 * s.nextAddr + 2), ⟨some (2 * s.nextAddr + 2), s.nextAddr + 1⟩)

/-! ## Thread-scope nexus (globalizer.h:164-179) -/

/-- State of a `ThreadNexus` together with the allocator view.  Modelled from
the spec: `PerThreadPointer<Type>` comes from `security_utilities/threading.h`,
which is not among the sources at hand; per spec 6 it is a per-thread storage
slot — get/set of a pointer value scoped per calling thread, initialized to
empty for each new thread — so `mSlot` maps each thread id to its private
cell. -/
structure TNState where
  mSlot : Nat → Option Nat
  nextAddr : Nat

/-- Model of `ThreadNexus<Type>::operator()()` (globalizer.h:168-175) as seen
from thread `t`: if `t`'s slot holds a pointer, return it; otherwise run
`new Type`, store the result in `t`'s slot and return it.  If `new Type`
throws, the slot is never written. -/
def TNaccess (mk : Except String Unit) (t : Nat) (s : TNState) : Except String Nat × TNState :=
  match s.mSlot t with
  | some p => (.ok p, s)
  | none =>
      match mk with
      | .error e => (.error e, s)
      | .ok () =>
          (.ok (2 * s.nextAddr + 2),
            ⟨Function.update s.mSlot t (some (2 * s.nextAddr + 2)), s.nextAddr + 1⟩)

/-- Well-formedness of a thread-nexus state: every stored pointer was produced
by the allocator (so it is below the next fresh address), and distinct threads'
slots hold distinct instances. -/
def TNwf (s : TNState) : Prop :=
  (∀ t p, s.mSlot t = some p → p < 2 * s.nextAddr + 2) ∧
  (∀ t u p q, s.mSlot t = some p → s.mSlot u = some q → t ≠ u → p ≠ q)

/-- Accessing a populated per-thread slot returns it unchanged. -/
theorem TNaccess_hit (t : Nat) (s : TNState) (p : Nat) (h : s.mSlot t = some p) :
    TNaccess (.ok ()) t s = (.ok p, s) := by
  rw [TNaccess, h]

/-- Accessing an empty per-thread slot allocates and stores a fresh instance. -/
theorem TNaccess_miss (t : Nat) (s : TNState) (h : s.mSlot t = none) :
    TNaccess (.ok ()) t s =
      (.ok (2 * s.nextAddr + 2),
        ⟨Function.update s.mSlot t (some (2 * s.nextAddr + 2)), s.nextAddr + 1⟩) := by
  rw [TNaccess, h]

/-- A successful access leaves a well-formed state with the calling thread's
slot holding the returned instance. -/
theorem TNaccess_post (t : Nat) (s : TNState) (hwf : TNwf s)
    (a : Nat) (s1 : TNState) (h1 : TNaccess (.ok ()) t s = (.ok a, s1)) :
    s1.mSlot t = some a ∧ TNwf s1 := by
  obtain ⟨hbound, hinj⟩ := hwf
  cases hc : s.mSlot t with
  | some p =>
      rw [TNaccess_hit t s p hc] at h1
      obtain ⟨hres, hst⟩ := Prod.mk.injEq .. ▸ h1
      obtain rfl : a = p := by cases hres; rfl
      cases hst
      exact ⟨hc, hbound, hinj⟩
  | none =>
      rw [TNaccess_miss t s hc] at h1
      obtain ⟨hres, hst⟩ := Prod.mk.injEq .. ▸ h1
      obtain rfl : a = 2 * s.nextAddr + 2 := by cases hres; rfl
      cases hst
      refine ⟨by simp, ?_, ?_⟩
      · intro v p hv
        simp only [Function.update_apply] at hv ⊢
        by_cases hvt : v = t
        · simp [hvt] at hv
          omega
        · simp [hvt] at hv
          have := hbound v p hv
          omega
      · intro v w p q hv hw hvw
        simp only [Function.update_apply] at hv hw
        by_cases hvt : v = t <;> by_cases hwt : w = t
        · exact absurd (hvt.trans hwt.symm) hvw
        · simp [hvt] at hv
          simp [hwt] at hw
          have := hbound w q hw
          omega
        · simp [hvt] at hv
          simp [hwt] at hw
          have := hbound v p hv
          omega
        · simp [hvt] at hv
          simp [hwt] at hw
          exact hinj v w p q hv hw hvw

/-- C6: on one thread-scope nexus, the same thread accessing twice receives the
same instance both times, and two different threads receive distinct
instances. -/
theorem threadNexus_per_thread_instances (s : TNState) (hwf : TNwf s)
    (t u : Nat) (hne : t ≠ u)
    (a : Nat) (s1 : TNState) (h1 : TNaccess (.ok ()) t s = (.ok a, s1))
    (a' : Nat) (s2 : TNState) (h2 : TNaccess (.ok ()) t s1 = (.ok a', s2))
    (b : Nat) (s3 : TNState) (h3 : TNaccess (.ok ()) u s1 = (.ok b, s3)) :
    a' = a ∧ b ≠ a := by
  obtain ⟨hta, hwf1⟩ := TNaccess_post t s hwf a s1 h1
  obtain ⟨hbound1, hinj1⟩ := hwf1
  constructor
  · rw [TNaccess_hit t s1 a hta] at h2
    obtain ⟨hres, _⟩ := Prod.mk.injEq .. ▸ h2
    cases hres
    rfl
  · cases hcu : s1.mSlot u with
    | some q =>
        rw [TNaccess_hit u s1 q hcu] at h3
        obtain ⟨hres, _⟩ := Prod.mk.injEq .. ▸ h3
        obtain rfl : b = q := by cases hres; rfl
        exact hinj1 u t b a hcu hta (Ne.symm hne)
    | none =>
        rw [TNaccess_miss u s1 hcu] at h3
        obtain ⟨hres, _⟩ := Prod.mk.injEq .. ▸ h3
        obtain rfl : b = 2 * s1.nextAddr + 2 := by cases hres; rfl
        have := hbound1 t a hta
        omega

/-- Closed witness for the thread-scope theorem on a fresh nexus and threads 0
and 1. -/
theorem threadNexus_per_thread_instances_witness :
    (2 : Nat) = 2 ∧ (4 : Nat) ≠ 2 := by
  refine threadNexus_per_thread_instances ⟨fun _ => none, 0⟩ ⟨?_, ?_⟩ 0 1 (by decide)
    2 ⟨Function.update (fun _ => none) 0 (some 2), 1⟩ ?_
    2 ⟨Function.update (fun _ => none) 0 (some 2), 1⟩ ?_
    4 ⟨Function.update (Function.update (fun _ => none) 0 (some 2)) 1 (some 4), 2⟩ ?_
  · intro t p h
    cases h
  · intro t u p q h
    cases h
  · exact TNaccess_miss 0 ⟨fun _ => none, 0⟩ rfl
  · exact TNaccess_hit 0 _ 2 (by simp)
  · rw [TNaccess_miss 1 _ (by simp)]
    rfl

/-! ## Process-scope named nexus (globalizer.h:187-220) -/

/-- Process-wide state backing all `ProcessNexus` objects: `registry` maps each
identifier string (compared by content) to the id of its shared `Store`,
`stores` maps a store id to the store's `mObject` word (0 = NULL), `nextStore`
is the next unused store id and `nextAddr` the allocator view.  Each store also
owns a `Mutex mLock`, held only inside one call of `operator()` via a scoped
`StLock`, so it does not appear in the sequential state. -/
structure PState where
  registry : List (String × Nat)
  stores : Nat → Nat
  nextStore : Nat
  nextAddr : Nat

/-- A `ProcessNexus<Type>` object (globalizer.h:198-206): `mStore` is the
pointer to the looked-up shared `Store` (modelled by its id), and `mObject` is
the declared but never-initialized private member. -/
structure ProcessNexus where
  mStore : Nat
  mObject : Nat
deriving DecidableEq

/-- The pristine process state: nothing registered, every store word NULL. -/
def pInit : PState := ⟨[], fun _ => 0, 0, 0⟩

/-- Modelled from the spec: `ProcessNexusBase::ProcessNexusBase(const char
*identifier)` is declared at globalizer.h:189 but implemented in
globalizer.cpp, which is not among the sources at hand.  Per spec 4.4/6, it
resolves `mStore` through a process-wide registry keyed by identifier content:
equal identifier strings — from whichever code image — yield the same store,
and a never-seen identifier is bound to a fresh store whose object word is
NULL. -/
def lookupStore (id : String) (s : PState) : Nat × PState :=
  match s.registry.lookup id with
  | some k => (k, s)
  | none =>
      (s.nextStore,
        { s with registry := (id, s.nextStore) :: s.registry, nextStore := s.nextStore + 1 })

/-- Model of the `ProcessNexus<Type>` constructor (globalizer.h:201): forward
the identifier to the `ProcessNexusBase` constructor; the `mObject` member is
left uninitialized, so it holds an arbitrary junk word `j`. -/
def PNmk (id : String) (j : Nat) (s : PState) : ProcessNexus × PState :=
  let (k, s') := lookupStore id s
  (⟨k, j⟩, s')

/-- Model of `ProcessNexus<Type>::operator()()` (globalizer.h:208-220):
unlocked fast read of `mStore->mObject`; else take `mStore->mLock` (scoped),
re-check, allocate with `new Type`, publish into the store and return.
Sequentially the re-check under the lock finds the same NULL word the fast
read saw.  The wrapper object itself is returned unchanged — the source never
touches `mObject`. -/
def PNaccess (mk : Except String Unit) (nx : ProcessNexus) (s : PState) :
    Except String Nat × ProcessNexus × PState :=
  if s.stores nx.mStore ≠ 0 then (.ok (s.stores nx.mStore), nx, s)
  else
    match mk with
    | .error e => (.error e, nx, s)
    | .ok () =>
        (.ok (2 * s.nextAddr + 2), nx,
          { s with
              stores := Function.update s.stores nx.mStore (2 * s.nextAddr + 2)
              nextAddr := s.nextAddr + 1 })

/-- Scenario harness for the cross-image sharing property: on a pristine
process, build wrappers A and B with identifier `id1` and wrapper C with
identifier `id2` (three separate object instances, as from different code
images), then run `access()` on A, B and C in that order, collecting the three
results. -/
def pnScenario (id1 id2 : String) (j1 j2 j3 : Nat) :
    Except String Nat × Except String Nat × Except String Nat :=
  let rA := PNmk id1 j1 pInit
  let rB := PNmk id1 j2 rA.2
  let rC := PNmk id2 j3 rB.2
  let rx := PNaccess (.ok ()) rA.1 rC.2
  let ry := PNaccess (.ok ()) rB.1 rx.2.2
  let rz := PNaccess (.ok ()) rC.1 ry.2.2
  (rx.1, ry.1, rz.1)

/-- C7: two process-scope nexus objects built with content-equal identifier
strings (even as separate object instances, as from different code images)
resolve to the same instance, and one built with a different identifier
resolves to a different instance. -/
theorem processNexus_identifier_sharing (id1 id2 : String) (j1 j2 j3 : Nat)
    (hne : id2 ≠ id1) :
    ∃ v w : Nat, pnScenario id1 id2 j1 j2 j3 = (.ok v, .ok v, .ok w) ∧ w ≠ v := by
  have hbeq : (id2 == id1) = false := beq_eq_false_iff_ne.mpr hne
  refine ⟨2, 4, ?_, by omega⟩
  simp only [pnScenario, PNmk, lookupStore, pInit, List.lookup, hbeq, beq_self_eq_true,
    PNaccess, Function.update_apply]
  norm_num

/-- Closed witness for identifier sharing, with the spec's own identifiers
"db-cache" and "other-cache". -/
theorem processNexus_identifier_sharing_witness :
    ("other-cache" : String) ≠ "db-cache" ∧
    ∃ v w : Nat,
      pnScenario "db-cache" "other-cache" 7 8 9 = (.ok v, .ok v, .ok w) ∧ w ≠ v :=
  ⟨by decide, processNexus_identifier_sharing "db-cache" "other-cache" 7 8 9 (by decide)⟩

/-- C10: the private member `mObject` of `ProcessNexus` is dead state — the
constructor leaves in it whatever junk it was handed (it never initializes
it), `operator()` returns the wrapper unchanged (never writes it), and the
result and post-state of `operator()` do not depend on it (never reads it). -/
theorem processNexus_mObject_unused :
    (∀ id j s, (PNmk id j s).1.mObject = j) ∧
    (∀ mk nx s, (PNaccess mk nx s).2.1 = nx) ∧
    (∀ mk k v v' s,
      (PNaccess mk ⟨k, v⟩ s).1 = (PNaccess mk ⟨k, v'⟩ s).1 ∧
      (PNaccess mk ⟨k, v⟩ s).2.2 = (PNaccess mk ⟨k, v'⟩ s).2.2) := by
  refine ⟨fun id j s => rfl, fun mk nx s => ?_, fun mk k v v' s => ?_⟩
  · rw [PNaccess.eq_def]
    split
    · rfl
    · cases mk with
      | error e => rfl
      | ok u => cases u; rfl
  · rw [PNaccess.eq_def, PNaccess.eq_def]
    split
    · exact ⟨rfl, rfl⟩
    · cases mk with
      | error e => exact ⟨rfl, rfl⟩
      | ok u => cases u; exact ⟨rfl, rfl⟩

/-- C8: a failure of the wrapped type's constructor during `access()`
propagates unchanged to the caller, leaves the slot exactly as it was found
(empty, not wedged in-progress), and a subsequent `access()` retries
construction and succeeds — at every nexus scope: module scope under the
atomic protocol (with the spec-modelled `create`), module scope under the
non-atomic fallback, thread scope, and process scope. -/
theorem ctor_failure_propagates_and_retries (e : String) :
    (∀ s : MNState, s.pointer = 0 →
      MNaccess (.error e) s = (.error e, s) ∧
      (MNaccess (.ok ()) s).1 = .ok (freshAddr s)) ∧
    (∀ s : MNFState, s.mSingleton = none →
      MNFaccess (.error e) s = (.error e, s) ∧
      (MNFaccess (.ok ()) s).1 = .ok (2 * s.nextAddr + 2)) ∧
    (∀ t (s : TNState), s.mSlot t = none →
      TNaccess (.error e) t s = (.error e, s) ∧
      (TNaccess (.ok ()) t s).1 = .ok (2 * s.nextAddr + 2)) ∧
    (∀ (nx : ProcessNexus) (s : PState), s.stores nx.mStore = 0 →
      PNaccess (.error e) nx s = (.error e, nx, s) ∧
      (PNaccess (.ok ()) nx s).1 = .ok (2 * s.nextAddr + 2)) := by
  have hnf0 : ¬ Finished 0 := by decide
  refine ⟨fun s h => ?_, fun s h => ?_, fun t s h => ?_, fun nx s h => ?_⟩
  · constructor
    · simp [MNaccess, MNcreate, h, hnf0]
    · simp [MNaccess, MNcreate, h, hnf0, freshAddr]
  · constructor
    · simp [MNFaccess, h]
    · simp [MNFaccess, h]
  · constructor
    · simp [TNaccess, h]
    · simp [TNaccess, h]
  · constructor
    · simp [PNaccess, h]
    · simp [PNaccess, h]

/-- Closed witness for failure propagation and retry, at concrete empty
states of all four access paths. -/
theorem ctor_failure_propagates_and_retries_witness :
    (MNaccess (.error "boom") ⟨0, 0, 0⟩ = (.error "boom", ⟨0, 0, 0⟩) ∧
      (MNaccess (.ok ()) ⟨0, 0, 0⟩).1 = .ok 2) ∧
    (MNFaccess (.error "boom") ⟨none, 0⟩ = (.error "boom", ⟨none, 0⟩) ∧
      (MNFaccess (.ok ()) ⟨none, 0⟩).1 = .ok 2) ∧
    (TNaccess (.error "boom") 0 ⟨fun _ => none, 0⟩ = (.error "boom", ⟨fun _ => none, 0⟩) ∧
      (TNaccess (.ok ()) 0 ⟨fun _ => none, 0⟩).1 = .ok 2) ∧
    (PNaccess (.error "boom") ⟨0, 7⟩ pInit = (.error "boom", ⟨0, 7⟩, pInit) ∧
      (PNaccess (.ok ()) ⟨0, 7⟩ pInit).1 = .ok 2) := by
  obtain ⟨h1, h2, h3, h4⟩ := ctor_failure_propagates_and_retries "boom"
  exact ⟨h1 ⟨0, 0, 0⟩ rfl, h2 ⟨none, 0⟩ rfl, h3 0 ⟨fun _ => none, 0⟩ rfl,
    h4 ⟨0, 7⟩ pInit rfl⟩

/-! ## Interleaved first-access races (spec sections 4.1, 4.4, 5, 8)

Small-step interleaving semantics for N threads racing their first `access()`
call on one pristine nexus, one system per scope.  Instances are numbered by
construction order: the k-th constructor run yields address `2 * k + 2`, and
`made` counts constructor runs. -/

/-- Phase of one thread racing through the module-scope `operator()` on its
first access: not yet read the slot; holder of the construction claim; loser
waiting for publication; or finished with the returned instance. -/
inductive MPhase
  | start
  | winner
  | waiting
  | done (ret : Nat)
deriving DecidableEq

/-- Global state of `n` threads racing on one module-scope nexus: the atomic
slot word, the number of constructor runs so far, and each thread's phase. -/
structure MRace (n : Nat) where
  slot : Nat
  made : Nat
  th : Fin n → MPhase

/-- Modelled from the spec: interleaving semantics of the module-scope
`operator()` (globalizer.h:78-86) together with the claim/publish protocol of
`ModuleNexusCommon::create`, whose body lives in globalizer.cpp and is not
among the sources.  Per spec 4.1: a thread that reads a finished pointer
returns it immediately (`fastRead`); a thread that finds the slot empty
atomically claims it, installing the tagged in-progress marker (`claimSlot`);
a thread that reads the marker must wait, never constructing itself
(`loseClaim`); the claim winner runs the factory and atomically publishes the
finished pointer (`publish`); waiters re-poll until they see a finished
pointer (`pollDone`). -/
inductive MRaceStep (n : Nat) : MRace n → MRace n → Prop
  | fastRead (s : MRace n) (i : Fin n) (hi : s.th i = .start)
      (h0 : s.slot ≠ 0) (h2 : s.slot % 2 = 0) :
      MRaceStep n s { s with th := Function.update s.th i (.done s.slot) }
  | claimSlot (s : MRace n) (i : Fin n) (hi : s.th i = .start) (h0 : s.slot = 0) :
      MRaceStep n s { s with slot := 1, th := Function.update s.th i .winner }
  | loseClaim (s : MRace n) (i : Fin n) (hi : s.th i = .start) (h1 : s.slot % 2 = 1) :
      MRaceStep n s { s with th := Function.update s.th i .waiting }
  | publish (s : MRace n) (i : Fin n) (hi : s.th i = .winner) :
      MRaceStep n s { slot := 2 * s.made + 2, made := s.made + 1,
                      th := Function.update s.th i (.done (2 * s.made + 2)) }
  | pollDone (s : MRace n) (i : Fin n) (hi : s.th i = .waiting)
      (h0 : s.slot ≠ 0) (h2 : s.slot % 2 = 0) :
      MRaceStep n s { s with th := Function.update s.th i (.done s.slot) }

/-- All threads about to make their first access on a pristine module nexus. -/
def MRaceInit (n : Nat) : MRace n := ⟨0, 0, fun _ => .start⟩

/-- States reachable in the module-scope first-access race. -/
def MReach (n : Nat) (s : MRace n) : Prop :=
  Relation.ReflTransGen (MRaceStep n) (MRaceInit n) s

/-- Inductive invariant of the module-scope race: either the slot is empty and
nothing has happened yet, or exactly one winner holds the claim and nobody has
finished, or the single instance (address 2) is published, was constructed
exactly once, and every finished thread returned it. -/
def MInv {n : Nat} (s : MRace n) : Prop :=
  (s.slot = 0 ∧ s.made = 0 ∧ ∀ i, s.th i = .start)
  ∨ (s.slot = 1 ∧ s.made = 0 ∧
      (∃ w, s.th w = .winner ∧ ∀ j, s.th j = .winner → j = w) ∧
      (∀ i, s.th i = .start ∨ s.th i = .waiting ∨ s.th i = .winner))
  ∨ (s.slot = 2 ∧ s.made = 1 ∧
      (∀ i, s.th i = .start ∨ s.th i = .waiting ∨ s.th i = .done 2))

/-- The module-scope race invariant is preserved by every step. -/
theorem MInv_step {n : Nat} {s s' : MRace n} (hs : MInv s) (st : MRaceStep n s s') :
    MInv s' := by
  cases st with
  | fastRead i hi h0 h2 =>
      rcases hs with ⟨hsl, _, _⟩ | ⟨hsl, _, _, _⟩ | ⟨hsl, hm, hsh⟩
      · exact absurd hsl h0
      · omega
      · refine Or.inr (Or.inr ⟨hsl, hm, fun j => ?_⟩)
        by_cases hj : j = i
        · subst hj
          right; right
          simp [Function.update_same, hsl]
        · simp only [Function.update_noteq hj]
          exact hsh j
  | claimSlot i hi h0 =>
      rcases hs with ⟨hsl, hm, hall⟩ | ⟨hsl, _, _, _⟩ | ⟨hsl, _, _⟩
      · refine Or.inr (Or.inl ⟨rfl, hm, ⟨i, ?_, fun j hj => ?_⟩, fun j => ?_⟩)
        · simp [Function.update_same]
        · by_cases hji : j = i
          · exact hji
          · simp only [Function.update_noteq hji] at hj
            rw [hall j] at hj
            cases hj
        · by_cases hji : j = i
          · subst hji
            right; right
            simp [Function.update_same]
          · simp only [Function.update_noteq hji]
            left
            exact hall j
      · omega
      · omega
  | loseClaim i hi h1 =>
      rcases hs with ⟨hsl, _, _⟩ | ⟨hsl, hm, ⟨w, hw, huniq⟩, hsh⟩ | ⟨hsl, _, _⟩
      · omega
      · have hiw : i ≠ w := by
          intro h
          rw [h, hw] at hi
          cases hi
        refine Or.inr (Or.inl ⟨hsl, hm, ⟨w, ?_, fun j hj => ?_⟩, fun j => ?_⟩)
        · simp only [Function.update_noteq (Ne.symm hiw)]
          exact hw
        · by_cases hji : j = i
          · subst hji
            simp only [Function.update_same] at hj
            cases hj
          · simp only [Function.update_noteq hji] at hj
            exact huniq j hj
        · by_cases hji : j = i
          · subst hji
            right; left
            simp [Function.update_same]
          · simp only [Function.update_noteq hji]
            exact hsh j
      · omega
  | publish i hi =>
      rcases hs with ⟨hsl, hm, hall⟩ | ⟨hsl, hm, ⟨w, hw, huniq⟩, hsh⟩ | ⟨hsl, hm, hsh⟩
      · rw [hall i] at hi
        cases hi
      · have hiw : i = w := huniq i hi
        refine Or.inr (Or.inr ⟨by show 2 * s.made + 2 = 2; omega,
          by show s.made + 1 = 1; omega, fun j => ?_⟩)
        by_cases hji : j = i
        · subst hji
          right; right
          simp [Function.update_same, hm]
        · simp only [Function.update_noteq hji]
          rcases hsh j with hj | hj | hj
          · exact Or.inl hj
          · exact Or.inr (Or.inl hj)
          · exact absurd (huniq j hj) (by rw [hiw] at hji; exact hji)
      · rcases hsh i with hj | hj | hj <;> rw [hj] at hi <;> cases hi
  | pollDone i hi h0 h2 =>
      rcases hs with ⟨hsl, _, hall⟩ | ⟨hsl, _, _, _⟩ | ⟨hsl, hm, hsh⟩
      · exact absurd hsl h0
      · omega
      · refine Or.inr (Or.inr ⟨hsl, hm, fun j => ?_⟩)
        by_cases hj : j = i
        · subst hj
          right; right
          simp [Function.update_same, hsl]
        · simp only [Function.update_noteq hj]
          exact hsh j

/-- Every reachable state of the module-scope race satisfies the invariant. -/
theorem MReach_inv {n : Nat} {s : MRace n} (h : MReach n s) : MInv s := by
  induction h with
  | refl => exact Or.inl ⟨rfl, rfl, fun i => rfl⟩
  | tail _ st ih => exact MInv_step ih st

/-- Consensus for the module-scope race: once all racing threads have
finished, exactly one instance was constructed and every thread returned that
same finished pointer. -/
theorem MRace_consensus {n : Nat} (hn : 1 ≤ n) (s : MRace n) (h : MReach n s)
    (hdone : ∀ i, ∃ r, s.th i = .done r) :
    s.made = 1 ∧ ∃ p, p ≠ 0 ∧ p % 2 = 0 ∧ ∀ i, s.th i = .done p := by
  have hinv := MReach_inv h
  obtain ⟨r0, hr0⟩ := hdone ⟨0, hn⟩
  rcases hinv with ⟨_, _, hall⟩ | ⟨_, _, _, hsh⟩ | ⟨hsl, hm, hsh⟩
  · rw [hall ⟨0, hn⟩] at hr0
    cases hr0
  · rcases hsh ⟨0, hn⟩ with hj | hj | hj <;> rw [hj] at hr0 <;> cases hr0
  · refine ⟨hm, 2, by omega, by omega, fun i => ?_⟩
    obtain ⟨r, hr⟩ := hdone i
    rcases hsh i with hj | hj | hj
    · rw [hj] at hr
      cases hr
    · rw [hj] at hr
      cases hr
    · exact hj

/-- Phase of one thread racing through the process-scope `operator()`
(globalizer.h:208-220) on its first access: not yet read the store; blocked on
the store's mutex; inside the critical section; or finished. -/
inductive PPhase
  | start
  | lockWait
  | critical
  | done (ret : Nat)
deriving DecidableEq

/-- Global state of `n` threads racing on one shared process-scope store: the
store's `mObject` word, the number of constructor runs so far, the holder of
the store's mutex, and each thread's phase. -/
structure PRace (n : Nat) where
  obj : Nat
  made : Nat
  lock : Option (Fin n)
  th : Fin n → PPhase

/-- Interleaving semantics of `ProcessNexus<Type>::operator()()`
(globalizer.h:208-220), the mutex-guarded double-checked pattern: an unlocked
read that sees a published object returns it (`fastRead`); one that sees NULL
proceeds to the lock (`slowPath`); the free mutex is acquired (`acquire`); the
re-check under the lock either finds an object published meanwhile and returns
it (`recheckFound`) or finds NULL, constructs, publishes and returns
(`construct`); the scoped lock is released on the way out.  The `Mutex` and
`StLock` semantics follow spec 6. -/
inductive PRaceStep (n : Nat) : PRace n → PRace n → Prop
  | fastRead (i : Fin n) (hi : s.th i = .start) (h0 : s.obj ≠ 0) :
      PRaceStep n s { s with th := Function.update s.th i (.done s.obj) }
  | slowPath (i : Fin n) (hi : s.th i = .start) (h0 : s.obj = 0) :
      PRaceStep n s { s with th := Function.update s.th i .lockWait }
  | acquire (i : Fin n) (hi : s.th i = .lockWait) (hl : s.lock = none) :
      PRaceStep n s { s with lock := some i, th := Function.update s.th i .critical }
  | recheckFound (i : Fin n) (hi : s.th i = .critical) (hl : s.lock = some i)
      (h0 : s.obj ≠ 0) :
      PRaceStep n s { s with lock := none, th := Function.update s.th i (.done s.obj) }
  | construct (i : Fin n) (hi : s.th i = .critical) (hl : s.lock = some i)
      (h0 : s.obj = 0) :
      PRaceStep n s { obj := 2 * s.made + 2, made := s.made + 1, lock := none,
                      th := Function.update s.th i (.done (2 * s.made + 2)) }

/-- All threads about to make their first access on one process-scope store. -/
def PRaceInit (n : Nat) : PRace n := ⟨0, 0, none, fun _ => .start⟩

/-- States reachable in the process-scope first-access race. -/
def PReach (n : Nat) (s : PRace n) : Prop :=
  Relation.ReflTransGen (PRaceStep n) (PRaceInit n) s

/-- Inductive invariant of the process-scope race: a thread is in the critical
section exactly when it holds the store's mutex, and either nothing has been
published (and then nothing was constructed and nobody has finished) or the
single instance (address 2) is published, was constructed exactly once, and
every finished thread returned it. -/
def PInv {n : Nat} (s : PRace n) : Prop :=
  (∀ i, s.th i = .critical ↔ s.lock = some i) ∧
  ((s.obj = 0 ∧ s.made = 0 ∧
      ∀ i, s.th i = .start ∨ s.th i = .lockWait ∨ s.th i = .critical)
   ∨ (s.obj = 2 ∧ s.made = 1 ∧
      ∀ i, s.th i = .start ∨ s.th i = .lockWait ∨ s.th i = .critical
        ∨ s.th i = .done 2))

/-- The process-scope race invariant is preserved by every step. -/
theorem PInv_step {n : Nat} {s s' : PRace n} (hs : PInv s) (st : PRaceStep n s s') :
    PInv s' := by
  obtain ⟨hlk, hst⟩ := hs
  cases st with
  | fastRead i hi h0 =>
      have hnl : s.lock ≠ some i := by
        intro h
        have hc := (hlk i).mpr h
        rw [hi] at hc
        cases hc
      constructor
      · intro j
        by_cases hj : j = i
        · subst hj
          simp [Function.update_same, hnl]
        · simp only [Function.update_noteq hj]
          exact hlk j
      · rcases hst with ⟨h, _, _⟩ | ⟨hobj, hm, hsh⟩
        · exact absurd h h0
        · refine Or.inr ⟨hobj, hm, fun j => ?_⟩
          by_cases hj : j = i
          · subst hj
            simp [Function.update_same, hobj]
          · simp only [Function.update_noteq hj]
            exact hsh j
  | slowPath i hi h0 =>
      have hnl : s.lock ≠ some i := by
        intro h
        have hc := (hlk i).mpr h
        rw [hi] at hc
        cases hc
      constructor
      · intro j
        by_cases hj : j = i
        · subst hj
          simp [Function.update_same, hnl]
        · simp only [Function.update_noteq hj]
          exact hlk j
      · rcases hst with ⟨hobj, hm, hsh⟩ | ⟨hobj, hm, hsh⟩
        · refine Or.inl ⟨hobj, hm, fun j => ?_⟩
          by_cases hj : j = i
          · subst hj
            simp [Function.update_same]
          · simp only [Function.update_noteq hj]
            exact hsh j
        · refine Or.inr ⟨hobj, hm, fun j => ?_⟩
          by_cases hj : j = i
          · subst hj
            simp [Function.update_same]
          · simp only [Function.update_noteq hj]
            exact hsh j
  | acquire i hi hl =>
      constructor
      · intro j
        by_cases hj : j = i
        · subst hj
          simp [Function.update_same]
        · have hnc : s.th j ≠ .critical := by
            intro h
            have hc := (hlk j).mp h
            rw [hl] at hc
            cases hc
          simp only [Function.update_noteq hj]
          simp [hnc, Option.some.injEq]
          intro h
          exact absurd h.symm hj
      · rcases hst with ⟨hobj, hm, hsh⟩ | ⟨hobj, hm, hsh⟩
        · refine Or.inl ⟨hobj, hm, fun j => ?_⟩
          by_cases hj : j = i
          · subst hj
            simp [Function.update_same]
          · simp only [Function.update_noteq hj]
            exact hsh j
        · refine Or.inr ⟨hobj, hm, fun j => ?_⟩
          by_cases hj : j = i
          · subst hj
            simp [Function.update_same]
          · simp only [Function.update_noteq hj]
            exact hsh j
  | recheckFound i hi hl h0 =>
      constructor
      · intro j
        by_cases hj : j = i
        · subst hj
          simp [Function.update_same]
        · have hnc : s.th j ≠ .critical := by
            intro h
            have hc := (hlk j).mp h
            rw [hl] at hc
            obtain rfl : i = j := Option.some.inj hc
            exact hj rfl
          simp only [Function.update_noteq hj]
          simp [hnc]
      · rcases hst with ⟨h, _, _⟩ | ⟨hobj, hm, hsh⟩
        · exact absurd h h0
        · refine Or.inr ⟨hobj, hm, fun j => ?_⟩
          by_cases hj : j = i
          · subst hj
            simp [Function.update_same, hobj]
          · simp only [Function.update_noteq hj]
            exact hsh j
  | construct i hi hl h0 =>
      constructor
      · intro j
        by_cases hj : j = i
        · subst hj
          simp [Function.update_same]
        · have hnc : s.th j ≠ .critical := by
            intro h
            have hc := (hlk j).mp h
            rw [hl] at hc
            obtain rfl : i = j := Option.some.inj hc
            exact hj rfl
          simp only [Function.update_noteq hj]
          simp [hnc]
      · rcases hst with ⟨hobj, hm, hsh⟩ | ⟨hobj, _, _⟩
        · refine Or.inr ⟨by show 2 * s.made + 2 = 2; omega,
            by show s.made + 1 = 1; omega, fun j => ?_⟩
          by_cases hj : j = i
          · subst hj
            simp [Function.update_same, hm]
          · simp only [Function.update_noteq hj]
            rcases hsh j with h | h | h
            · exact Or.inl h
            · exact Or.inr (Or.inl h)
            · exact Or.inr (Or.inr (Or.inl h))
        · exact absurd hobj (by omega)


/-- Every reachable state of the process-scope race satisfies the invariant. -/
theorem PReach_inv {n : Nat} {s : PRace n} (h : PReach n s) : PInv s := by
  induction h with
  | refl =>
      constructor
      · intro i
        constructor
        · intro h
          cases h
        · intro h
          cases h
      · exact Or.inl ⟨rfl, rfl, fun i => Or.inl rfl⟩
  | tail _ st ih => exact PInv_step ih st

/-- Consensus for the process-scope race: once all racing threads have
finished, exactly one instance was constructed and every thread returned that
same published object. -/
theorem PRace_consensus {n : Nat} (hn : 1 ≤ n) (s : PRace n) (h : PReach n s)
    (hdone : ∀ i, ∃ r, s.th i = .done r) :
    s.made = 1 ∧ ∃ p, p ≠ 0 ∧ ∀ i, s.th i = .done p := by
  obtain ⟨_, hst⟩ := PReach_inv h
  obtain ⟨r0, hr0⟩ := hdone ⟨0, hn⟩
  rcases hst with ⟨_, _, hsh⟩ | ⟨hobj, hm, hsh⟩
  · rcases hsh ⟨0, hn⟩ with hj | hj | hj <;> rw [hj] at hr0 <;> cases hr0
  · refine ⟨hm, 2, by omega, fun i => ?_⟩
    obtain ⟨r, hr⟩ := hdone i
    rcases hsh i with hj | hj | hj | hj <;> try (rw [hj] at hr; cases hr)
    exact hj

/-- Phase of one thread racing through the thread-scope `operator()`
(globalizer.h:168-175) on its first access: not yet run, or finished. -/
inductive TPhase
  | start
  | done (ret : Nat)
deriving DecidableEq

/-- Global state of `n` threads making their first access on one thread-scope
nexus: only the shared allocator (`made`) and each thread's phase — each
thread's `PerThreadPointer` slot is private to it (empty for a new thread) and
equals its `done` value once finished, so it needs no separate field. -/
structure TRace (n : Nat) where
  made : Nat
  th : Fin n → TPhase

/-- Interleaving semantics of `ThreadNexus<Type>::operator()()`
(globalizer.h:168-175) for first accesses: each thread finds its own private
slot empty ("no thread contention here!"), so it allocates, stores the result
in its slot and finishes; no step reads or writes any other thread's slot. -/
inductive TRaceStep (n : Nat) : TRace n → TRace n → Prop
  | construct (i : Fin n) (hi : s.th i = .start) :
      TRaceStep n s ⟨s.made + 1, Function.update s.th i (.done (2 * s.made + 2))⟩

/-- All threads about to make their first access on one thread-scope nexus. -/
def TRaceInit (n : Nat) : TRace n := ⟨0, fun _ => .start⟩

/-- States reachable in the thread-scope first-access race. -/
def TReach (n : Nat) (s : TRace n) : Prop :=
  Relation.ReflTransGen (TRaceStep n) (TRaceInit n) s

/-- Inductive invariant of the thread-scope race: every returned instance is a
real allocation within the allocator bound, no two threads returned the same
instance, and the number of constructor runs equals the number of finished
threads. -/
def TInv {n : Nat} (s : TRace n) : Prop :=
  (∀ i r, s.th i = .done r → r ≠ 0 ∧ r ≤ 2 * s.made) ∧
  (∀ i j r, s.th i = .done r → s.th j = .done r → i = j) ∧
  s.made = (Finset.univ.filter fun i => s.th i ≠ .start).card

/-- The thread-scope race invariant is preserved by every step. -/
theorem TInv_step {n : Nat} {s s' : TRace n} (hs : TInv s) (st : TRaceStep n s s') :
    TInv s' := by
  obtain ⟨hbound, hinj, hcard⟩ := hs
  cases st with
  | construct i hi =>
      refine ⟨?_, ?_, ?_⟩
      · intro j r hj
        by_cases hji : j = i
        · subst hji
          simp only [Function.update_same] at hj
          have hr : r = 2 * s.made + 2 := by cases hj; rfl
          refine ⟨by omega, ?_⟩
          show r ≤ 2 * (s.made + 1)
          omega
        · simp only [Function.update_noteq hji] at hj
          have hb := hbound j r hj
          refine ⟨hb.1, ?_⟩
          show r ≤ 2 * (s.made + 1)
          omega
      · intro j k r hj hk
        by_cases hji : j = i <;> by_cases hki : k = i
        · rw [hji, hki]
        · subst hji
          simp only [Function.update_same] at hj
          simp only [Function.update_noteq hki] at hk
          have hr : r = 2 * s.made + 2 := by cases hj; rfl
          have hb := hbound k r hk
          omega
        · subst hki
          simp only [Function.update_same] at hk
          simp only [Function.update_noteq hji] at hj
          have hr : r = 2 * s.made + 2 := by cases hk; rfl
          have hb := hbound j r hj
          omega
        · simp only [Function.update_noteq hji] at hj
          simp only [Function.update_noteq hki] at hk
          exact hinj j k r hj hk
      · have hset :
            (Finset.univ.filter fun j =>
                Function.update s.th i (TPhase.done (2 * s.made + 2)) j ≠ .start)
              = insert i (Finset.univ.filter fun j => s.th j ≠ .start) := by
          ext j
          simp only [Finset.mem_filter, Finset.mem_univ, true_and, Finset.mem_insert]
          by_cases hji : j = i
          · subst hji
            simp [Function.update_same]
          · simp [Function.update_noteq hji, hji]
        show s.made + 1 = _
        rw [hset, Finset.card_insert_of_not_mem (by simp [hi]), ← hcard]

/-- Every reachable state of the thread-scope race satisfies the invariant. -/
theorem TReach_inv {n : Nat} {s : TRace n} (h : TReach n s) : TInv s := by
  induction h with
  | refl =>
      refine ⟨fun i r h => ?_, fun i j r hi hj => ?_, ?_⟩
      · cases h
      · cases hi
      · simp [TRaceInit]
  | tail _ st ih => exact TInv_step ih st

/-- Per-thread outcome of the thread-scope race: once all racing threads have
finished, the constructor ran exactly once per thread (n times in total) and
distinct threads received distinct instances. -/
theorem TRace_per_thread {n : Nat} (s : TRace n) (h : TReach n s)
    (hdone : ∀ i, ∃ r, s.th i = .done r) :
    s.made = n ∧ ∀ i j r, s.th i = .done r → s.th j = .done r → i = j := by
  obtain ⟨_, hinj, hcard⟩ := TReach_inv h
  refine ⟨?_, hinj⟩
  have hfull : (Finset.univ.filter fun i => s.th i ≠ .start) = Finset.univ := by
    rw [Finset.filter_eq_self]
    intro i _
    obtain ⟨r, hr⟩ := hdone i
    rw [hr]
    intro hc
    cases hc
  rw [hcard, hfull, Finset.card_univ, Fintype.card_fin]

/-- C1 counterexample: the claim's "for every nexus scope ... all N calls
return a reference to that same single instance" fails at the thread scope.
Concrete input: one thread-scope nexus, two racing threads, the complete
interleaving in which thread 0 constructs and then thread 1 constructs; the
two calls return distinct instances. -/
theorem race_single_instance_counterexample :
    ¬ (∀ s : TRace 2, TReach 2 s → (∀ i, ∃ r, s.th i = .done r) →
        ∃ p, ∀ i, s.th i = .done p) := by
  intro hcl
  have hst1 : TRaceStep 2 (TRaceInit 2)
      ⟨1, Function.update (fun _ => .start) 0 (.done 2)⟩ :=
    TRaceStep.construct 0 rfl
  have hst2 : TRaceStep 2 ⟨1, Function.update (fun _ => .start) 0 (.done 2)⟩
      ⟨2, Function.update (Function.update (fun _ => .start) 0 (.done 2)) 1 (.done 4)⟩ :=
    TRaceStep.construct 1 (by decide)
  have hreach : TReach 2
      ⟨2, Function.update (Function.update (fun _ => .start) 0 (.done 2)) 1 (.done 4)⟩ :=
    Relation.ReflTransGen.tail (Relation.ReflTransGen.tail Relation.ReflTransGen.refl hst1)
      hst2
  obtain ⟨p, hp⟩ := hcl _ hreach (by
    intro i
    fin_cases i
    · exact ⟨2, by decide⟩
    · exact ⟨4, by decide⟩)
  have h0 := hp 0
  have h1 := hp 1
  have e0 : (⟨2, Function.update (Function.update (fun _ => .start) 0 (.done 2)) 1
      (.done 4)⟩ : TRace 2).th 0 = .done 2 := by decide
  have e1 : (⟨2, Function.update (Function.update (fun _ => .start) 0 (.done 2)) 1
      (.done 4)⟩ : TRace 2).th 1 = .done 4 := by decide
  rw [e0] at h0
  rw [e1] at h1
  have hp2 : p = 2 := by cases h0; rfl
  have hp4 : p = 4 := by cases h1; rfl
  omega

/-- C1 (amended): for any N ≥ 1 threads racing their first `access()` on one
nexus, at module scope and at process scope exactly one instance is
constructed and all N calls return that same single instance; at thread scope
each racing thread's call constructs exactly one instance of its own (N
constructions in total) and distinct threads receive distinct instances. -/
theorem race_exactly_once_per_scope :
    (∀ n, 1 ≤ n → ∀ s : MRace n, MReach n s → (∀ i, ∃ r, s.th i = .done r) →
      s.made = 1 ∧ ∃ p, p ≠ 0 ∧ p % 2 = 0 ∧ ∀ i, s.th i = .done p) ∧
    (∀ n, 1 ≤ n → ∀ s : PRace n, PReach n s → (∀ i, ∃ r, s.th i = .done r) →
      s.made = 1 ∧ ∃ p, p ≠ 0 ∧ ∀ i, s.th i = .done p) ∧
    (∀ n, ∀ s : TRace n, TReach n s → (∀ i, ∃ r, s.th i = .done r) →
      s.made = n ∧ ∀ i j r, s.th i = .done r → s.th j = .done r → i = j) :=
  ⟨fun n hn s h hdone => @MRace_consensus n hn s h hdone,
   fun n hn s h hdone => @PRace_consensus n hn s h hdone,
   fun n s h hdone => @TRace_per_thread n s h hdone⟩

/-- Complete one-thread run of the module-scope race: claim, then publish. -/
def mRaceFinal : MRace 1 :=
  ⟨2, 1, Function.update (Function.update (fun _ => .start) 0 .winner) 0 (.done 2)⟩

/-- Complete one-thread run of the process-scope race: miss, lock, construct. -/
def pRaceFinal : PRace 1 :=
  ⟨2, 1, none,
    Function.update
      (Function.update (Function.update (fun _ => .start) 0 .lockWait) 0 .critical)
      0 (.done 2)⟩

/-- Complete one-thread run of the thread-scope race: one construction. -/
def tRaceFinal : TRace 1 := ⟨1, Function.update (fun _ => .start) 0 (.done 2)⟩

/-- Closed witness for the per-scope race theorem, instantiated on complete
concrete single-thread runs of all three races. -/
theorem race_exactly_once_per_scope_witness :
    (mRaceFinal.made = 1 ∧ ∃ p, p ≠ 0 ∧ p % 2 = 0 ∧ ∀ i, mRaceFinal.th i = .done p) ∧
    (pRaceFinal.made = 1 ∧ ∃ p, p ≠ 0 ∧ ∀ i, pRaceFinal.th i = .done p) ∧
    (tRaceFinal.made = 1 ∧
      ∀ i j r, tRaceFinal.th i = .done r → tRaceFinal.th j = .done r → i = j) := by
  obtain ⟨hm, hp, ht⟩ := race_exactly_once_per_scope
  refine ⟨hm 1 (by omega) mRaceFinal ?_ ?_, hp 1 (by omega) pRaceFinal ?_ ?_,
    ht 1 tRaceFinal ?_ ?_⟩
  · exact Relation.ReflTransGen.tail
      (Relation.ReflTransGen.tail Relation.ReflTransGen.refl
        (MRaceStep.claimSlot (MRaceInit 1) 0 rfl rfl))
      (MRaceStep.publish ⟨1, 0, Function.update (fun _ => .start) 0 .winner⟩ 0 (by decide))
  · intro i
    fin_cases i
    exact ⟨2, by decide⟩
  · exact Relation.ReflTransGen.tail
      (Relation.ReflTransGen.tail
        (Relation.ReflTransGen.tail Relation.ReflTransGen.refl
          (PRaceStep.slowPath 0 rfl rfl))
        (PRaceStep.acquire 0 (by decide) rfl))
      (PRaceStep.construct 0 (by decide) rfl rfl)
  · intro i
    fin_cases i
    exact ⟨2, by decide⟩
  · exact Relation.ReflTransGen.tail Relation.ReflTransGen.refl
      (TRaceStep.construct 0 rfl)
  · intro i
    fin_cases i
    exact ⟨2, by decide⟩

end Globalizer
